import Mathlib

/-!
# Verification of the defmt-persist ring buffer

Shallow embedding of the persistent SPSC byte ring buffer from
`src/ring_buffer.rs`, the init entry point from `src/lib.rs`, and the
reentrancy-gated logger frontend from `src/logger.rs` (non-`ecc-64bit`
configuration; the ECC variants only add padding writes that do not change
the functional state).

Machine integers are modelled as `Nat`; the data area is a `List Nat` of
bytes whose length plays the role of `buf_len` (`data_len`).
-/

namespace DefmtPersist

/-- Magic value indicating an initialized region
(constant `MAGIC`, non-`ecc-64bit` variant, `src/ring_buffer.rs`). -/
def MAGIC : Nat := 0xb528c25f90c616afcbc1502c09c1fd6e

/-- Functional state of the persist region: the `RingBuffer` header fields
(`header`, `read`, `write`) together with the data area that follows it in
memory.  `data.length` is `buf_len`. -/
structure RingState where
  header : Nat
  read : Nat
  write : Nat
  data : List Nat
  deriving Repr, DecidableEq

/-- Copy of `src` into `dst` starting at position `pos`
(models `ptr::copy_nonoverlapping(src, buf.add(pos), src.len())`;
faithful whenever `pos + src.length ≤ dst.length`, which the safety
arguments in the source establish at every call site). -/
def copyAt (dst : List Nat) (pos : Nat) (src : List Nat) : List Nat :=
  dst.take pos ++ src ++ dst.drop (pos + src.length)

/-- Free space computation `Producer::available` given the loaded
`read`/`write` values (`src/ring_buffer.rs` lines 262-269). -/
def available (bufLen read write : Nat) : Nat :=
  if read > write then
    read - write - 1
  else
    bufLen - write - 1 + read

/-- Append operation `Producer::write` (`src/ring_buffer.rs` lines 275-364):
append `input`, silently discarding the bytes that do not fit; on the
wrapping path the copy is split at `pivot = buf.len() - write`; finally
`write := (write + len) % buf.len()`. -/
def producerWrite (s : RingState) (input : List Nat) : RingState :=
  let read := s.read
  let write := s.write
  let len := min input.length (available s.data.length read write)
  if len = 0 then s
  else
    let data' :=
      if write + len > s.data.length then
        let pivot := s.data.length - write
        copyAt (copyAt s.data write (input.take pivot)) 0 ((input.take len).drop pivot)
      else
        copyAt s.data write (input.take len)
    { s with data := data', write := (write + len) % s.data.length }

/-- Read grant `GrantR` (`src/ring_buffer.rs` lines 480-494): the two slices
plus the `read` index captured at grant time. -/
structure Grant where
  slice1 : List Nat
  slice2 : List Nat
  originalRead : Nat
  deriving Repr, DecidableEq

/-- Peek operation `Consumer::read` (`src/ring_buffer.rs` lines 386-455):
materialize the two slices `(buf[read..read+len1], buf[0..len2])` with
`(len1, len2) = if write < read then (buf.len() - read, write) else (write - read, 0)`. -/
def consumerRead (s : RingState) : Grant :=
  let write := s.write
  let read := s.read
  let p := if write < read then (s.data.length - read, write) else (write - read, 0)
  { slice1 := (s.data.drop read).take p.1
    slice2 := s.data.take p.2
    originalRead := read }

/-- Peek operation `Consumer::read` as a state transformer: the source
performs only atomic loads and constructs slices, so the buffer state is
returned unchanged alongside the grant.  Dropping the grant runs no code
(`GrantR` has no `Drop` implementation). -/
def consumerReadOp (s : RingState) : RingState × Grant :=
  (s, consumerRead s)

/-- Readable bytes of a state: concatenation of the two slices of the grant. -/
def readBytes (s : RingState) : List Nat :=
  (consumerRead s).slice1 ++ (consumerRead s).slice2

/-- Release operation `GrantR::release` (`src/ring_buffer.rs` lines 500-520):
clamp `used` to the grant length, then
`new_read = if read + used < buf.len() { read + used } else { used - slice1.len() }`. -/
def grantRelease (s : RingState) (g : Grant) (used : Nat) : RingState :=
  let used := min used (g.slice1.length + g.slice2.length)
  let read := g.originalRead
  let new_read :=
    if read + used < s.data.length then read + used
    else used - g.slice1.length
  { s with read := new_read }

/-- Value of `usize::MAX` on the 64-bit targets the crate supports. -/
def USIZE_MAX : Nat := 2 ^ 64 - 1

/-- Release-everything operation `GrantR::release_all`
(`src/ring_buffer.rs` lines 525-528): `self.release(usize::MAX)`. -/
def grantReleaseAll (s : RingState) (g : Grant) : RingState :=
  grantRelease s g USIZE_MAX

/-- Recovery procedure `RingBuffer::recover_or_reinitialize`
(`src/ring_buffer.rs` lines 141-235), restricted to its effect on the region
state.  Fresh path when the header differs from `MAGIC`; repair path
otherwise, with the four-way match on `(read_ok, write_ok)`. -/
def recover (s : RingState) : RingState :=
  if s.header ≠ MAGIC then
    { s with read := 0, write := 0, header := MAGIC }
  else
    let read_ok := s.read < s.data.length
    let write_ok := s.write < s.data.length
    if read_ok then
      if write_ok then s
      else { s with write := s.read }
    else
      if write_ok then { s with read := s.write }
      else { s with read := 0, write := 0 }

/-- Primitive mutation events of the recovery procedure, used to state the
ordering facts of the fresh path. -/
inductive Ev where
  | storeRead (v : Nat)
  | storeWrite (v : Nat)
  | storeHeader (v : Nat)
  | fenceSeqCst
  deriving Repr, DecidableEq

/-- Effect of one mutation event on the region state. -/
def applyEv (s : RingState) : Ev → RingState
  | .storeRead v => { s with read := v }
  | .storeWrite v => { s with write := v }
  | .storeHeader v => { s with header := v }
  | .fenceSeqCst => s

/-- Effect of a trace of mutation events, applied in order. -/
def applyTrace (s : RingState) (tr : List Ev) : RingState :=
  tr.foldl applyEv s

/-- Exact sequence of header/index mutations performed by the fresh path of
`recover_or_reinitialize` (`src/ring_buffer.rs` lines 162-182):
store `read := 0`, store `write := 0`, full `SeqCst` fence, volatile
store `header := MAGIC`. -/
def freshTrace : List Ev :=
  [.storeRead 0, .storeWrite 0, .fenceSeqCst, .storeHeader MAGIC]

/-- Reachable buffer states: the result of running recovery on an arbitrary
nonempty region, followed by any sequence of producer appends and
consumer read/release cycles. -/
inductive Reachable : RingState → Prop where
  | recovered (s : RingState) (h : 0 < s.data.length) : Reachable (recover s)
  | written (s : RingState) (B : List Nat) (h : Reachable s) :
      Reachable (producerWrite s B)
  | released (s : RingState) (n : Nat) (h : Reachable s) :
      Reachable (grantRelease s (consumerRead s) n)

/-- Number of readable bytes, `(write − read) mod data_len` computed without
leaving `Nat`. -/
def readable (s : RingState) : Nat :=
  (s.write + s.data.length - s.read) % s.data.length

/-- State invariant maintained by every reachable state: valid header and
both indices strictly inside the data area. -/
def Inv (s : RingState) : Prop :=
  s.header = MAGIC ∧ 0 < s.data.length ∧
    s.read < s.data.length ∧ s.write < s.data.length

/-! ## Init entry point (`src/lib.rs`) -/

/-- Alignment `align_of::<RingBuffer>()`: the `u128` header gives 16. -/
def RB_ALIGN : Nat := 16

/-- Size `size_of::<RingBuffer>()` in the plain layout: `u128` plus two
`AtomicU32`, rounded up to the 16-byte struct alignment. -/
def RB_SIZE : Nat := 32

/-- Bound `i32::MAX as usize / 4` used by the `TooLarge` check of `init`
(`src/lib.rs` line 104). -/
def INIT_BOUND : Nat := (2 ^ 31 - 1) / 4

/-- Failure kinds of `init` (`InitError` in `src/lib.rs`). -/
inductive InitError where
  | AlreadyInitialized
  | BadAlignment
  | TooSmall
  | TooLarge
  deriving Repr, DecidableEq

/-- Geometry checks of `init` (`src/lib.rs` lines 97-106) as a function of
the region base address and length, on a first call (the once-flag check
has already passed): alignment, minimum size, then the `TooLarge` bound on
`buf_len = len − size_of::<RingBuffer>()`. -/
def initValidate (start len : Nat) : Option InitError :=
  if ¬ start % RB_ALIGN = 0 then some .BadAlignment
  else if len ≤ RB_SIZE then some .TooSmall
  else if len - RB_SIZE ≥ INIT_BOUND then some .TooLarge
  else none

/-! ## Logger frontend (`src/logger.rs`) -/

/-- Modulus of `usize` arithmetic for the depth counter. -/
def USIZE : Nat := 2 ^ 64

/-- Observable state of the logger frontend: the reentrancy depth counter,
whether the critical section is held, whether an encoder frame is open,
the bytes handed to the encoder by `write`, and the number of transport
flushes performed. -/
structure LogState where
  depth : Nat
  csEntered : Bool
  frameStarted : Bool
  written : List Nat
  flushes : Nat
  deriving Repr, DecidableEq

/-- Frontend `Logger::acquire` (`src/logger.rs` lines 100-126):
`fetch_add(1)` on the depth counter; if the previous value was nonzero,
return without any setup; otherwise enter the critical section, save the
restore state, and start an encoder frame. -/
def logAcquire (s : LogState) : LogState :=
  let was := s.depth
  let s' := { s with depth := (s.depth + 1) % USIZE }
  if was > 0 then s'
  else { s' with csEntered := true, frameStarted := true }

/-- Frontend `Logger::write` (`src/logger.rs` lines 164-174): if the depth
counter is not exactly 1, return without doing anything (the reentrant log
is silently dropped); otherwise feed the bytes to the encoder. -/
def logWrite (s : LogState) (bytes : List Nat) : LogState :=
  if s.depth ≠ 1 then s
  else { s with written := s.written ++ bytes }

/-- Frontend `Logger::flush` (`src/logger.rs` lines 128-139): if the depth
counter is not exactly 1, return without doing anything; otherwise flush
the direct transports (a no-op for the ring buffer itself). -/
def logFlush (s : LogState) : LogState :=
  if s.depth ≠ 1 then s
  else { s with flushes := s.flushes + 1 }

/-- Frontend `Logger::release` (`src/logger.rs` lines 141-162):
`fetch_sub(1)` on the depth counter; if the previous value was not exactly
1, return without any cleanup; otherwise end the encoder frame and exit the
critical section. -/
def logRelease (s : LogState) : LogState :=
  let was := s.depth
  let s' := { s with depth := (s.depth + (USIZE - 1)) % USIZE }
  if was ≠ 1 then s'
  else { s' with frameStarted := false, csEntered := false }

end DefmtPersist

namespace DefmtPersist

/-! ## Helper lemmas -/

theorem copyAt_length {dst src : List Nat} {pos : Nat}
    (h : pos + src.length ≤ dst.length) :
    (copyAt dst pos src).length = dst.length := by
  simp only [copyAt, List.length_append, List.length_take, List.length_drop]
  omega

theorem copyAt_drop_right {dst src : List Nat} {pos : Nat}
    (h : pos ≤ dst.length) :
    (copyAt dst pos src).drop pos = src ++ dst.drop (pos + src.length) := by
  rw [copyAt, List.append_assoc, List.drop_left']
  simp only [List.length_take]
  omega

theorem copyAt_take_left {dst src : List Nat} {pos : Nat}
    (h : pos ≤ dst.length) :
    (copyAt dst pos src).take pos = dst.take pos := by
  rw [copyAt, List.append_assoc, List.take_left']
  simp only [List.length_take]
  omega

theorem take_min_length (B : List Nat) (k : Nat) :
    B.take (min B.length k) = B.take k := by
  rcases le_total B.length k with h | h
  · rw [min_eq_left h, List.take_of_length_le le_rfl, List.take_of_length_le h]
  · rw [min_eq_right h]

end DefmtPersist

namespace DefmtPersist

/-! ## Claim theorems -/

/-- C3 (repair classification): for a region whose header equals `MAGIC`,
recovery leaves `read` and `write` unchanged when both are in range; when
exactly one index is out of range it sets the out-of-range index equal to
the in-range one, so the buffer presents as empty; when both are out of
range it sets both to 0; in all repair cases the data bytes are not
modified. -/
theorem repair_classification (s : RingState) (h : s.header = MAGIC) :
    (s.read < s.data.length → s.write < s.data.length → recover s = s) ∧
    (s.read < s.data.length → ¬ s.write < s.data.length →
      recover s = { s with write := s.read } ∧
        (recover s).read = (recover s).write) ∧
    (¬ s.read < s.data.length → s.write < s.data.length →
      recover s = { s with read := s.write } ∧
        (recover s).read = (recover s).write) ∧
    (¬ s.read < s.data.length → ¬ s.write < s.data.length →
      recover s = { s with read := 0, write := 0 }) ∧
    (recover s).data = s.data := by
  simp only [recover, h, ne_eq, not_true_eq_false, if_false, ite_not]
  split_ifs <;> simp_all

/-- Witness for `repair_classification` at a concrete repairable state. -/
theorem repair_classification_witness :
    let s : RingState := ⟨MAGIC, 1, 9, [0, 0, 0, 0]⟩
    ((s.read < s.data.length → s.write < s.data.length → recover s = s) ∧
    (s.read < s.data.length → ¬ s.write < s.data.length →
      recover s = { s with write := s.read } ∧
        (recover s).read = (recover s).write) ∧
    (¬ s.read < s.data.length → s.write < s.data.length →
      recover s = { s with read := s.write } ∧
        (recover s).read = (recover s).write) ∧
    (¬ s.read < s.data.length → ¬ s.write < s.data.length →
      recover s = { s with read := 0, write := 0 }) ∧
    (recover s).data = s.data) ∧ s.header = MAGIC :=
  ⟨repair_classification ⟨MAGIC, 1, 9, [0, 0, 0, 0]⟩ rfl, rfl⟩

/-- C4 (fresh path): for a region whose header differs from `MAGIC`,
recovery produces `read = 0`, `write = 0`, header `MAGIC`, leaves the data
bytes untouched, the result reads as empty, and the state change is that of
the mutation trace whose last event — after the full fence — is the store of
`MAGIC` into the header, preceded by the stores of 0 into `read` and
`write`. -/
theorem fresh_path (s : RingState) (h : s.header ≠ MAGIC) :
    recover s = applyTrace s freshTrace ∧
    recover s = { s with read := 0, write := 0, header := MAGIC } ∧
    (recover s).data = s.data ∧
    readBytes (recover s) = [] ∧
    freshTrace.getLast? = some (Ev.storeHeader MAGIC) ∧
    freshTrace.take 2 = [Ev.storeRead 0, Ev.storeWrite 0] := by
  simp [recover, h, applyTrace, freshTrace, applyEv, readBytes, consumerRead]

/-- Witness for `fresh_path` at a concrete fresh region. -/
theorem fresh_path_witness :
    let s : RingState := ⟨0, 7, 7, [5, 5, 5, 5]⟩
    (recover s = applyTrace s freshTrace ∧
    recover s = { s with read := 0, write := 0, header := MAGIC } ∧
    (recover s).data = s.data ∧
    readBytes (recover s) = [] ∧
    freshTrace.getLast? = some (Ev.storeHeader MAGIC) ∧
    freshTrace.take 2 = [Ev.storeRead 0, Ev.storeWrite 0]) ∧ (0 : Nat) ≠ MAGIC :=
  ⟨fresh_path ⟨0, 7, 7, [5, 5, 5, 5]⟩ (by decide), by decide⟩

/-- C10 (reading is a repeatable pure peek): taking a grant changes neither
the indices nor the data, and reading again after dropping the grant (which
runs no code) yields an identical grant. -/
theorem read_is_pure_peek (s : RingState) :
    (consumerReadOp s).1 = s ∧
    (consumerReadOp (consumerReadOp s).1).2 = (consumerReadOp s).2 ∧
    (consumerReadOp s).1.read = s.read ∧
    (consumerReadOp s).1.write = s.write ∧
    (consumerReadOp s).1.data = s.data :=
  ⟨rfl, rfl, rfl, rfl, rfl⟩

end DefmtPersist

namespace DefmtPersist

/-- C6 (grant slice shapes): under the index invariant the grant returned by
`Consumer::read` is `(data[read..write], ∅)` when `write ≥ read` and
`(data[read..data_len], data[0..write])` when `write < read`, and the slice
lengths always sum to `(write − read) mod data_len`. -/
theorem grant_slice_shapes (s : RingState) (hr : s.read < s.data.length)
    (hw : s.write < s.data.length) :
    (s.read ≤ s.write →
      (consumerRead s).slice1 = (s.data.take s.write).drop s.read ∧
      (consumerRead s).slice2 = []) ∧
    (s.write < s.read →
      (consumerRead s).slice1 = s.data.drop s.read ∧
      (consumerRead s).slice2 = s.data.take s.write) ∧
    (consumerRead s).slice1.length + (consumerRead s).slice2.length
      = readable s := by
  rcases lt_or_le s.write s.read with hlt | hle
  · refine ⟨fun hc => absurd hc (by omega), fun _ => ?_, ?_⟩
    · constructor
      · simp only [consumerRead, if_pos hlt]
        exact List.take_of_length_le (by simp)
      · simp only [consumerRead, if_pos hlt]
    · simp only [consumerRead, if_pos hlt, List.length_take, List.length_drop,
        readable]
      rw [Nat.mod_eq_of_lt (by omega)]
      omega
  · refine ⟨fun _ => ?_, fun hc => absurd hc (by omega), ?_⟩
    · constructor
      · simp only [consumerRead, if_neg (by omega : ¬ s.write < s.read)]
        rw [List.drop_take]
      · simp only [consumerRead, if_neg (by omega : ¬ s.write < s.read), List.take_zero]
    · simp only [consumerRead, if_neg (by omega : ¬ s.write < s.read),
        List.length_take, List.length_drop, List.take_zero, List.length_nil,
        readable]
      have h1 : s.write + s.data.length - s.read
          = (s.write - s.read) + s.data.length := by omega
      rw [h1, Nat.add_mod_right, Nat.mod_eq_of_lt (by omega)]
      omega

end DefmtPersist

namespace DefmtPersist

/-- Witness for `grant_slice_shapes` at a concrete wrapped state. -/
theorem grant_slice_shapes_witness :
    let s : RingState := ⟨MAGIC, 3, 1, [10, 20, 30, 40]⟩
    ((s.read ≤ s.write →
      (consumerRead s).slice1 = (s.data.take s.write).drop s.read ∧
      (consumerRead s).slice2 = []) ∧
    (s.write < s.read →
      (consumerRead s).slice1 = s.data.drop s.read ∧
      (consumerRead s).slice2 = s.data.take s.write) ∧
    (consumerRead s).slice1.length + (consumerRead s).slice2.length
      = readable s) ∧ (3 : Nat) < 4 ∧ (1 : Nat) < 4 :=
  ⟨grant_slice_shapes ⟨MAGIC, 3, 1, [10, 20, 30, 40]⟩ (by decide) (by decide),
    by decide, by decide⟩

/-- C7 (release semantics): for a grant taken from a state satisfying the
index invariant, `release(n)` sets `read` to
`(original_read + min(n, total_len)) mod data_len`, leaves `write`, the
data and the header unchanged, and `release_all` equals `release` at the
total grant length. -/
theorem release_semantics (s : RingState) (n : Nat)
    (hr : s.read < s.data.length) (hw : s.write < s.data.length)
    (hcap : s.data.length ≤ USIZE_MAX) :
    (grantRelease s (consumerRead s) n).read
      = ((consumerRead s).originalRead
          + min n ((consumerRead s).slice1.length
              + (consumerRead s).slice2.length)) % s.data.length ∧
    (grantRelease s (consumerRead s) n).write = s.write ∧
    (grantRelease s (consumerRead s) n).data = s.data ∧
    (grantRelease s (consumerRead s) n).header = s.header ∧
    grantReleaseAll s (consumerRead s)
      = grantRelease s (consumerRead s)
          ((consumerRead s).slice1.length + (consumerRead s).slice2.length) := by
  have hL : 0 < s.data.length := by omega
  rcases lt_or_le s.write s.read with hlt | hle
  · -- wrapped case: slice1 = data[read..L], slice2 = data[0..write]
    have hlen1 : (consumerRead s).slice1.length = s.data.length - s.read := by
      simp only [consumerRead, if_pos hlt, List.length_take, List.length_drop]
      omega
    have hlen2 : (consumerRead s).slice2.length = s.write := by
      simp only [consumerRead, if_pos hlt, List.length_take]
      omega
    have hor : (consumerRead s).originalRead = s.read := rfl
    have htot : (consumerRead s).slice1.length + (consumerRead s).slice2.length
        = s.data.length - s.read + s.write := by rw [hlen1, hlen2]
    refine ⟨?_, rfl, rfl, rfl, ?_⟩
    · simp only [grantRelease, hor, htot, hlen1]
      split_ifs with hif
      · rw [Nat.mod_eq_of_lt hif]
      · have h2L : s.read + min n (s.data.length - s.read + s.write)
            < 2 * s.data.length := by omega
        rw [Nat.mod_eq_sub_mod (by omega), Nat.mod_eq_of_lt (by omega)]
        omega
    · simp only [grantReleaseAll, grantRelease, htot]
      have : min USIZE_MAX (s.data.length - s.read + s.write)
          = s.data.length - s.read + s.write := by
        rw [min_eq_right]; omega
      rw [this, min_self]
  · -- straight case: slice1 = data[read..write], slice2 = []
    have hlen1 : (consumerRead s).slice1.length = s.write - s.read := by
      simp only [consumerRead, if_neg (by omega : ¬ s.write < s.read),
        List.length_take, List.length_drop]
      omega
    have hlen2 : (consumerRead s).slice2.length = 0 := by
      simp only [consumerRead, if_neg (by omega : ¬ s.write < s.read),
        List.take_zero, List.length_nil]
    have hor : (consumerRead s).originalRead = s.read := rfl
    have htot : (consumerRead s).slice1.length + (consumerRead s).slice2.length
        = s.write - s.read := by rw [hlen1, hlen2]; omega
    refine ⟨?_, rfl, rfl, rfl, ?_⟩
    · simp only [grantRelease, hor, htot, hlen1]
      split_ifs with hif
      · rw [Nat.mod_eq_of_lt hif]
      · omega
    · simp only [grantReleaseAll, grantRelease, htot]
      have : min USIZE_MAX (s.write - s.read) = s.write - s.read := by
        rw [min_eq_right]; omega
      rw [this, min_self]

end DefmtPersist

namespace DefmtPersist

/-- Witness for `release_semantics` at a concrete wrapped state. -/
theorem release_semantics_witness :
    let s : RingState := ⟨MAGIC, 2, 1, [10, 20, 30, 40]⟩
    ((grantRelease s (consumerRead s) 2).read
      = ((consumerRead s).originalRead
          + min 2 ((consumerRead s).slice1.length
              + (consumerRead s).slice2.length)) % s.data.length ∧
    (grantRelease s (consumerRead s) 2).write = s.write ∧
    (grantRelease s (consumerRead s) 2).data = s.data ∧
    (grantRelease s (consumerRead s) 2).header = s.header ∧
    grantReleaseAll s (consumerRead s)
      = grantRelease s (consumerRead s)
          ((consumerRead s).slice1.length + (consumerRead s).slice2.length)) ∧
    (2 : Nat) < 4 ∧ (1 : Nat) < 4 ∧ (4 : Nat) ≤ USIZE_MAX :=
  ⟨release_semantics ⟨MAGIC, 2, 1, [10, 20, 30, 40]⟩ 2 (by decide) (by decide)
      (by decide),
    by decide, by decide, by decide⟩

theorem logAcquire_nested (s : LogState) (h : 0 < s.depth) :
    logAcquire s = { s with depth := (s.depth + 1) % USIZE } := by
  simp [logAcquire, h]

theorem logWrite_of_ne (s : LogState) (b : List Nat) (h : s.depth ≠ 1) :
    logWrite s b = s := by
  simp [logWrite, h]

theorem logFlush_of_ne (s : LogState) (h : s.depth ≠ 1) :
    logFlush s = s := by
  simp [logFlush, h]

theorem logRelease_of_ne (s : LogState) (h : s.depth ≠ 1) :
    logRelease s = { s with depth := (s.depth + (USIZE - 1)) % USIZE } := by
  simp [logRelease, h]

/-- C9 (reentrancy no-ops): an outer `acquire` (depth 0 → 1) performs the
critical-section and frame setup; a nested `acquire` only increments the
depth counter; while the depth is not exactly 1, `write` and `flush` do
nothing and `release` only decrements; a nested acquire/write/release
triple leaves the logger state exactly as it was, so reentrant frames are
silently dropped and each decrement pairs with an increment. -/
theorem logger_reentrancy (s : LogState) (b : List Nat) :
    (s.depth = 0 →
      logAcquire s
        = { s with depth := 1, csEntered := true, frameStarted := true }) ∧
    (1 ≤ s.depth → s.depth + 1 < USIZE →
      logAcquire s = { s with depth := s.depth + 1 }) ∧
    (s.depth ≠ 1 → logWrite s b = s ∧ logFlush s = s) ∧
    (s.depth ≠ 1 → 1 ≤ s.depth → s.depth < USIZE →
      logRelease s = { s with depth := s.depth - 1 }) ∧
    (1 ≤ s.depth → s.depth + 1 < USIZE →
      logRelease (logWrite (logAcquire s) b) = s) := by
  refine ⟨?_, ?_, ?_, ?_, ?_⟩
  · intro h0
    simp [logAcquire, h0, USIZE]
  · intro h1 h2
    rw [logAcquire_nested s (by omega), Nat.mod_eq_of_lt h2]
  · intro hne
    exact ⟨logWrite_of_ne s b hne, logFlush_of_ne s hne⟩
  · intro hne h1 h2
    rw [logRelease_of_ne s hne]
    have he : s.depth + (USIZE - 1) = (s.depth - 1) + USIZE := by
      simp only [USIZE]; omega
    rw [he, Nat.add_mod_right, Nat.mod_eq_of_lt (by omega)]
  · intro h1 h2
    rw [logAcquire_nested s (by omega), Nat.mod_eq_of_lt h2,
      logWrite_of_ne _ b (show s.depth + 1 ≠ 1 by omega),
      logRelease_of_ne _ (show s.depth + 1 ≠ 1 by omega)]
    have he : s.depth + 1 + (USIZE - 1) = s.depth + USIZE := by
      simp only [USIZE]; omega
    simp only [he]
    rw [Nat.add_mod_right, Nat.mod_eq_of_lt (by omega)]

/-- Witness for `logger_reentrancy` at a concrete reentrant state. -/
theorem logger_reentrancy_witness :
    let s : LogState := ⟨2, true, true, [7], 0⟩
    ((s.depth = 0 →
      logAcquire s
        = { s with depth := 1, csEntered := true, frameStarted := true }) ∧
    (1 ≤ s.depth → s.depth + 1 < USIZE →
      logAcquire s = { s with depth := s.depth + 1 }) ∧
    (s.depth ≠ 1 → logWrite s [3] = s ∧ logFlush s = s) ∧
    (s.depth ≠ 1 → 1 ≤ s.depth → s.depth < USIZE →
      logRelease s = { s with depth := s.depth - 1 }) ∧
    (1 ≤ s.depth → s.depth + 1 < USIZE →
      logRelease (logWrite (logAcquire s) [3]) = s)) ∧
    (2 : Nat) ≠ 1 ∧ 1 ≤ (2 : Nat) ∧ (2 : Nat) + 1 < USIZE :=
  ⟨logger_reentrancy ⟨2, true, true, [7], 0⟩ [3], by decide, by decide,
    by norm_num [USIZE]⟩

end DefmtPersist

namespace DefmtPersist

/-- Counterexample to C5 as stated: a region whose data length is
`i32::MAX / 4 = 536870911 < 2^30` passes alignment and minimum-size checks
yet `init` reports `TooLarge`, so the documented `2^30` bound is not the
one the code enforces. -/
theorem init_toolarge_counterexample :
    initValidate 0 (RB_SIZE + 536870911) = some InitError.TooLarge ∧
    RB_SIZE + 536870911 - RB_SIZE < 2 ^ 30 ∧
    0 % RB_ALIGN = 0 ∧ RB_SIZE < RB_SIZE + 536870911 := by
  refine ⟨?_, by norm_num [RB_SIZE], by decide, by norm_num⟩
  unfold initValidate
  rw [if_neg (by decide), if_neg (by norm_num),
    if_pos (by norm_num [RB_SIZE, INIT_BOUND])]

/-- C5 amended: on a first call, for a region passing the alignment and
minimum-size checks, `init` returns `TooLarge` if and only if the data
length (region length minus header size) is at least
`i32::MAX / 4 = 536870911`; below that bound the validation succeeds. -/
theorem init_toolarge_amended (start len : Nat) (halign : start % RB_ALIGN = 0)
    (hsize : RB_SIZE < len) :
    (initValidate start len = some InitError.TooLarge ↔ 536870911 ≤ len - RB_SIZE) ∧
    (len - RB_SIZE < 536870911 → initValidate start len = none) := by
  have hb : INIT_BOUND = 536870911 := by norm_num [INIT_BOUND]
  unfold initValidate
  rw [if_neg (by simp [halign]), if_neg (by omega), hb]
  constructor
  · split_ifs with h <;> simp [h]
  · intro h
    rw [if_neg (by omega)]

/-- Witness for `init_toolarge_amended` at a concrete small region. -/
theorem init_toolarge_amended_witness :
    ((initValidate 0 1000 = some InitError.TooLarge ↔ 536870911 ≤ 1000 - RB_SIZE) ∧
     (1000 - RB_SIZE < 536870911 → initValidate 0 1000 = none)) ∧
    0 % RB_ALIGN = 0 ∧ RB_SIZE < 1000 :=
  ⟨init_toolarge_amended 0 1000 (by decide) (by decide), by decide, by decide⟩

end DefmtPersist

namespace DefmtPersist

theorem available_le {L r w : Nat} (hr : r < L) (hw : w < L) :
    available L r w ≤ L - 1 := by
  unfold available
  split_ifs <;> omega

theorem producerWrite_read (s : RingState) (B : List Nat) :
    (producerWrite s B).read = s.read := by
  simp only [producerWrite]
  split_ifs <;> rfl

theorem producerWrite_header (s : RingState) (B : List Nat) :
    (producerWrite s B).header = s.header := by
  simp only [producerWrite]
  split_ifs <;> rfl

theorem producerWrite_length (s : RingState) (B : List Nat)
    (hr : s.read < s.data.length) (hw : s.write < s.data.length) :
    (producerWrite s B).data.length = s.data.length := by
  have hav := available_le hr hw
  have hnle : min B.length (available s.data.length s.read s.write)
      ≤ available s.data.length s.read s.write := min_le_right _ _
  have hnB : min B.length (available s.data.length s.read s.write)
      ≤ B.length := min_le_left _ _
  simp only [producerWrite]
  split_ifs with h0 hwrap
  · rfl
  · -- wrapping path: two in-bounds copies
    have hpivB : s.data.length - s.write ≤ B.length := by omega
    have hlen1 : (copyAt s.data s.write
        (B.take (s.data.length - s.write))).length = s.data.length := by
      refine copyAt_length ?_
      simp only [List.length_take]
      omega
    refine Eq.trans (copyAt_length ?_) hlen1
    simp only [List.length_drop, List.length_take, hlen1]
    omega
  · -- straight path: one in-bounds copy
    refine copyAt_length ?_
    simp only [List.length_take]
    omega

theorem producerWrite_write (s : RingState) (B : List Nat)
    (hw : s.write < s.data.length) :
    (producerWrite s B).write
      = (s.write + min B.length (available s.data.length s.read s.write))
          % s.data.length := by
  simp only [producerWrite]
  split_ifs with h0 hwrap
  · rw [h0, Nat.add_zero, Nat.mod_eq_of_lt hw]
  · rfl
  · rfl

theorem grantRelease_write (s : RingState) (g : Grant) (n : Nat) :
    (grantRelease s g n).write = s.write := rfl

theorem grantRelease_data (s : RingState) (g : Grant) (n : Nat) :
    (grantRelease s g n).data = s.data := rfl

theorem grantRelease_header (s : RingState) (g : Grant) (n : Nat) :
    (grantRelease s g n).header = s.header := rfl

theorem consumerRead_slice2_le (s : RingState) :
    (consumerRead s).slice2.length ≤ s.write := by
  simp only [consumerRead]
  split_ifs <;> simp

theorem grantRelease_read_lt (s : RingState) (n : Nat)
    (hw : s.write < s.data.length) (hL : 0 < s.data.length) :
    (grantRelease s (consumerRead s) n).read < s.data.length := by
  have h2 := consumerRead_slice2_le s
  simp only [grantRelease]
  split_ifs with h
  · exact h
  · omega

end DefmtPersist

namespace DefmtPersist

theorem readBytes_straight {s : RingState} (h : s.read ≤ s.write) :
    readBytes s = (s.data.drop s.read).take (s.write - s.read) := by
  simp [readBytes, consumerRead, Nat.not_lt.mpr h]

theorem readBytes_wrapped {s : RingState} (h : s.write < s.read) :
    readBytes s = s.data.drop s.read ++ s.data.take s.write := by
  simp only [readBytes, consumerRead, if_pos h]
  rw [List.take_of_length_le (by simp)]

theorem producerWrite_eq_straight (s : RingState) (B : List Nat)
    (h0 : ¬ min B.length (available s.data.length s.read s.write) = 0)
    (hnw : ¬ s.write + min B.length (available s.data.length s.read s.write)
        > s.data.length) :
    producerWrite s B
      = { s with
          write := (s.write + min B.length (available s.data.length s.read s.write))
              % s.data.length,
          data := copyAt s.data s.write
              (B.take (min B.length (available s.data.length s.read s.write))) } := by
  simp only [producerWrite]
  rw [if_neg h0, if_neg hnw]

theorem producerWrite_eq_wrap (s : RingState) (B : List Nat)
    (h0 : ¬ min B.length (available s.data.length s.read s.write) = 0)
    (hwrap : s.write + min B.length (available s.data.length s.read s.write)
        > s.data.length) :
    producerWrite s B
      = { s with
          write := (s.write + min B.length (available s.data.length s.read s.write))
              % s.data.length,
          data := copyAt
              (copyAt s.data s.write (B.take (s.data.length - s.write))) 0
              ((B.take (min B.length (available s.data.length s.read s.write))).drop
                (s.data.length - s.write)) } := by
  simp only [producerWrite]
  rw [if_neg h0, if_pos hwrap]

end DefmtPersist

namespace DefmtPersist

theorem producerWrite_eq_zero (s : RingState) (B : List Nat)
    (h0 : min B.length (available s.data.length s.read s.write) = 0) :
    producerWrite s B = s := by
  simp only [producerWrite]
  rw [if_pos h0]

theorem readBytes_write_straight (hd r w n : Nat) (d B : List Nat)
    (hw : w < d.length) (hA : r ≤ w)
    (hnB : n ≤ B.length) (hub : n ≤ d.length - w - 1 + r)
    (hnw : w + n ≤ d.length) :
    readBytes ⟨hd, r, (w + n) % d.length, copyAt d w (B.take n)⟩
      = readBytes ⟨hd, r, w, d⟩ ++ B.take n := by
  have hlenTn : (B.take n).length = n := by
    rw [List.length_take]
    omega
  rw [readBytes_straight (show (⟨hd, r, w, d⟩ : RingState).read
      ≤ (⟨hd, r, w, d⟩ : RingState).write from hA)]
  dsimp only
  by_cases hend : w + n = d.length
  · -- the write ends exactly at the end of the buffer: new write index is 0
    have hr1 : 1 ≤ r := by omega
    rw [hend, Nat.mod_self]
    rw [readBytes_wrapped (show (0 : Nat) < r from hr1)]
    dsimp only
    rw [List.take_zero, List.append_nil, copyAt, hlenTn, hend, List.drop_length,
      List.append_nil, List.drop_append_eq_append_drop, List.drop_take,
      List.length_take, min_eq_left (le_of_lt hw)]
    have he1 : r - w = 0 := by omega
    rw [he1, List.drop_zero]
  · -- the write stays strictly inside the buffer: new write index is w + n
    have hwn : w + n < d.length := by omega
    rw [Nat.mod_eq_of_lt hwn]
    rw [readBytes_straight (show r ≤ (w + n) from by omega)]
    dsimp only
    have he1 : w + n - r = (w - r) + n := by omega
    rw [he1, List.take_add]
    congr 1
    · rw [← List.drop_take, copyAt_take_left (le_of_lt hw), List.drop_take]
    · rw [List.drop_drop]
      have he2 : r + (w - r) = w := by omega
      rw [he2, copyAt_drop_right (le_of_lt hw), List.take_left' hlenTn]

theorem readBytes_write_inside_wrapped (hd r w n : Nat) (d B : List Nat)
    (hr : r < d.length) (hlt : w < r)
    (hnB : n ≤ B.length) (hub : n ≤ r - w - 1) :
    readBytes ⟨hd, r, (w + n) % d.length, copyAt d w (B.take n)⟩
      = readBytes ⟨hd, r, w, d⟩ ++ B.take n := by
  have hlenTn : (B.take n).length = n := by
    rw [List.length_take]
    omega
  have hwn : w + n < r := by omega
  rw [readBytes_wrapped (show (⟨hd, r, w, d⟩ : RingState).write
      < (⟨hd, r, w, d⟩ : RingState).read from hlt)]
  rw [Nat.mod_eq_of_lt (by omega)]
  rw [readBytes_wrapped (show (w + n) < r from hwn)]
  dsimp only
  have hxy : (d.take w ++ B.take n).length = w + n := by
    rw [List.length_append, List.length_take, List.length_take]
    omega
  have hDtake : (copyAt d w (B.take n)).take (w + n)
      = d.take w ++ B.take n := by
    rw [copyAt, hlenTn]
    exact List.take_left' hxy
  have hDdrop : (copyAt d w (B.take n)).drop r = d.drop r := by
    have hdropxy : (d.take w ++ B.take n).drop r = ([] : List Nat) :=
      List.drop_eq_nil_of_le (by rw [hxy]; omega)
    rw [copyAt, hlenTn, List.drop_append_eq_append_drop, hdropxy,
      List.nil_append, hxy, List.drop_drop]
    have e : w + n + (r - (w + n)) = r := by omega
    rw [e]
  rw [hDtake, hDdrop]
  simp [List.append_assoc]

theorem readBytes_write_wrapping (hd r w n : Nat) (d B : List Nat)
    (hr : r < d.length) (hw : w < d.length) (hA : r ≤ w)
    (hnB : n ≤ B.length) (hub : n ≤ d.length - w - 1 + r)
    (hwrap : d.length < w + n) :
    readBytes ⟨hd, r, (w + n) % d.length,
        copyAt (copyAt d w (B.take (d.length - w))) 0
          ((B.take n).drop (d.length - w))⟩
      = readBytes ⟨hd, r, w, d⟩ ++ B.take n := by
  have hpivn : d.length - w < n := by omega
  have hnr : n - (d.length - w) < r := by omega
  have hr1 : 1 ≤ r := by omega
  have hlentake : (B.take (d.length - w)).length = d.length - w := by
    rw [List.length_take]
    omega
  have hlenB2 : ((B.take n).drop (d.length - w)).length = n - (d.length - w) := by
    rw [List.length_drop, List.length_take]
    omega
  have hD1 : copyAt d w (B.take (d.length - w))
      = d.take w ++ B.take (d.length - w) := by
    rw [copyAt, hlentake]
    have he : w + (d.length - w) = d.length := by omega
    rw [he, List.drop_length, List.append_nil]
  have hwmod : (w + n) % d.length = n - (d.length - w) := by
    have he : w + n = d.length + (n - (d.length - w)) := by omega
    rw [he, Nat.add_mod_left, Nat.mod_eq_of_lt (by omega)]
  rw [hwmod, hD1]
  rw [readBytes_straight (show (⟨hd, r, w, d⟩ : RingState).read
      ≤ (⟨hd, r, w, d⟩ : RingState).write from hA)]
  rw [readBytes_wrapped (show n - (d.length - w) < r from hnr)]
  dsimp only
  have hD : copyAt (d.take w ++ B.take (d.length - w)) 0
        ((B.take n).drop (d.length - w))
      = (B.take n).drop (d.length - w)
        ++ (d.take w ++ B.take (d.length - w)).drop (n - (d.length - w)) := by
    rw [copyAt, List.take_zero, List.nil_append, Nat.zero_add, hlenB2]
  rw [hD]
  have hDtake : ((B.take n).drop (d.length - w)
        ++ (d.take w ++ B.take (d.length - w)).drop (n - (d.length - w))).take
          (n - (d.length - w))
      = (B.take n).drop (d.length - w) := List.take_left' hlenB2
  have hDdrop : ((B.take n).drop (d.length - w)
        ++ (d.take w ++ B.take (d.length - w)).drop (n - (d.length - w))).drop r
      = (d.drop r).take (w - r) ++ B.take (d.length - w) := by
    have h2 : ((B.take n).drop (d.length - w)).drop r = ([] : List Nat) :=
      List.drop_eq_nil_of_le (by rw [hlenB2]; omega)
    rw [List.drop_append_eq_append_drop, h2, List.nil_append, hlenB2,
      List.drop_drop]
    have e : n - (d.length - w) + (r - (n - (d.length - w))) = r := by omega
    rw [e, List.drop_append_eq_append_drop, List.drop_take, List.length_take,
      min_eq_left (le_of_lt hw)]
    have e2 : r - w = 0 := by omega
    rw [e2, List.drop_zero]
  rw [hDtake, hDdrop]
  have hsplit : B.take (d.length - w) ++ (B.take n).drop (d.length - w)
      = B.take n := by
    have ht : B.take (d.length - w) = (B.take n).take (d.length - w) := by
      rw [List.take_take, min_eq_left (by omega)]
    rw [ht, List.take_append_drop]
  simp [List.append_assoc, hsplit]

theorem readBytes_producerWrite (s : RingState) (B : List Nat)
    (hr : s.read < s.data.length) (hw : s.write < s.data.length) :
    readBytes (producerWrite s B)
      = readBytes s
        ++ B.take (min B.length (available s.data.length s.read s.write)) := by
  obtain ⟨hd, r, w, d⟩ := s
  dsimp only at hr hw ⊢
  by_cases h0 : min B.length (available d.length r w) = 0
  · rw [producerWrite_eq_zero _ _ h0, h0]
    simp
  by_cases hwrap : w + min B.length (available d.length r w) > d.length
  · have hA : r ≤ w := by
      by_contra hc
      have hav : available d.length r w = r - w - 1 := by
        unfold available
        rw [if_pos (by omega)]
      have := min_le_right B.length (available d.length r w)
      omega
    have hav : available d.length r w = d.length - w - 1 + r := by
      unfold available
      rw [if_neg (by omega)]
    rw [producerWrite_eq_wrap _ _ h0 hwrap]
    dsimp only
    exact readBytes_write_wrapping hd r w _ d B hr hw hA
      (min_le_left _ _) (by rw [← hav]; exact min_le_right _ _) (by omega)
  · rw [producerWrite_eq_straight _ _ h0 hwrap]
    dsimp only
    by_cases hA : r ≤ w
    · have hav : available d.length r w = d.length - w - 1 + r := by
        unfold available
        rw [if_neg (by omega)]
      exact readBytes_write_straight hd r w _ d B hw hA
        (min_le_left _ _) (by rw [← hav]; exact min_le_right _ _) (by omega)
    · have hav : available d.length r w = r - w - 1 := by
        unfold available
        rw [if_pos (by omega)]
      exact readBytes_write_inside_wrapped hd r w _ d B hr (by omega)
        (min_le_left _ _) (by rw [← hav]; exact min_le_right _ _)

end DefmtPersist

namespace DefmtPersist

/-- C2 (append postcondition): with `avail` bytes available and an input of
`k` bytes, `Producer::write` advances `write` by exactly
`n = min(k, avail)` modulo `data_len`, leaves `read`, the header and the
data length unchanged, and a subsequent read returns the previous content
followed by exactly the first `n` input bytes in order — the last `k − n`
bytes are silently discarded and the operation never fails. -/
theorem append_postcondition (s : RingState) (B : List Nat)
    (hr : s.read < s.data.length) (hw : s.write < s.data.length) :
    (producerWrite s B).write
      = (s.write + min B.length (available s.data.length s.read s.write))
          % s.data.length ∧
    (producerWrite s B).read = s.read ∧
    (producerWrite s B).header = s.header ∧
    (producerWrite s B).data.length = s.data.length ∧
    readBytes (producerWrite s B)
      = readBytes s
        ++ B.take (min B.length (available s.data.length s.read s.write)) :=
  ⟨producerWrite_write s B hw, producerWrite_read s B, producerWrite_header s B,
    producerWrite_length s B hr hw, readBytes_producerWrite s B hr hw⟩

/-- Witness for `append_postcondition`: overfilling append on a wrapped
concrete state. -/
theorem append_postcondition_witness :
    (let s : RingState := ⟨MAGIC, 2, 2, [0, 0, 0, 0]⟩
     let B : List Nat := [1, 2, 3, 4, 5]
     (producerWrite s B).write
      = (s.write + min B.length (available s.data.length s.read s.write))
          % s.data.length ∧
     (producerWrite s B).read = s.read ∧
     (producerWrite s B).header = s.header ∧
     (producerWrite s B).data.length = s.data.length ∧
     readBytes (producerWrite s B)
      = readBytes s
        ++ B.take (min B.length (available s.data.length s.read s.write))) ∧
    (2 : Nat) < 4 :=
  ⟨append_postcondition ⟨MAGIC, 2, 2, [0, 0, 0, 0]⟩ [1, 2, 3, 4, 5]
      (by decide) (by decide),
    by decide⟩

theorem recover_inv (s : RingState) (h : 0 < s.data.length) :
    Inv (recover s) := by
  unfold Inv recover
  dsimp only
  split_ifs with h1 h2 h3 h4
  · exact ⟨rfl, h, h, h⟩
  · exact ⟨not_not.mp h1, h, h2, h3⟩
  · exact ⟨not_not.mp h1, h, h2, h2⟩
  · exact ⟨not_not.mp h1, h, h4, h4⟩
  · exact ⟨not_not.mp h1, h, h, h⟩

theorem producerWrite_inv (s : RingState) (B : List Nat) (h : Inv s) :
    Inv (producerWrite s B) := by
  obtain ⟨h1, h2, h3, h4⟩ := h
  refine ⟨?_, ?_, ?_, ?_⟩
  · rw [producerWrite_header]
    exact h1
  · rw [producerWrite_length s B h3 h4]
    exact h2
  · rw [producerWrite_read, producerWrite_length s B h3 h4]
    exact h3
  · rw [producerWrite_write s B h4, producerWrite_length s B h3 h4]
    exact Nat.mod_lt _ h2

theorem grantRelease_inv (s : RingState) (n : Nat) (h : Inv s) :
    Inv (grantRelease s (consumerRead s) n) := by
  obtain ⟨h1, h2, h3, h4⟩ := h
  exact ⟨h1, h2, grantRelease_read_lt s n h4 h2, h4⟩

theorem reachable_inv (s : RingState) (h : Reachable s) : Inv s := by
  induction h with
  | recovered s0 h0 => exact recover_inv s0 h0
  | written s0 B hprev ih => exact producerWrite_inv s0 B ih
  | released s0 n hprev ih => exact grantRelease_inv s0 n ih

/-- C8 (index invariant): every state reachable from recovery through any
sequence of appends, reads and releases keeps `read < data_len` and
`write < data_len`, and the number of readable bytes
`(write − read) mod data_len` is between 0 and `data_len − 1`. -/
theorem index_invariant (s : RingState) (h : Reachable s) :
    s.read < s.data.length ∧ s.write < s.data.length ∧
      readable s ≤ s.data.length - 1 := by
  obtain ⟨h1, h2, h3, h4⟩ := reachable_inv s h
  refine ⟨h3, h4, ?_⟩
  have hmod : (s.write + s.data.length - s.read) % s.data.length
      < s.data.length := Nat.mod_lt _ h2
  unfold readable
  omega

/-- Witness for `index_invariant` at a concrete reachable state. -/
theorem index_invariant_witness :
    let s : RingState := producerWrite (recover ⟨0, 0, 0, [0, 0, 0, 0]⟩) [9]
    s.read < s.data.length ∧ s.write < s.data.length ∧
      readable s ≤ s.data.length - 1 :=
  index_invariant (producerWrite (recover ⟨0, 0, 0, [0, 0, 0, 0]⟩) [9])
    (Reachable.written _ _ (Reachable.recovered ⟨0, 0, 0, [0, 0, 0, 0]⟩
      (by decide)))

/-- Counterexample to C1 as stated: from a reachable but non-empty state
(one byte `9` already buffered), appending `B = [7]`, snapshotting and
re-running recovery yields a read of `[9, 7]`, not `B` capped at
`data_len − 1 = 3` — the quantifier of the claim over all reachable states
ignores previously buffered content. -/
theorem roundtrip_counterexample :
    Reachable (producerWrite (recover ⟨0, 0, 0, [0, 0, 0, 0]⟩) [9]) ∧
    readBytes (recover (producerWrite
        (producerWrite (recover ⟨0, 0, 0, [0, 0, 0, 0]⟩) [9]) [7]))
      ≠ [7].take
          ((producerWrite (recover ⟨0, 0, 0, [0, 0, 0, 0]⟩) [9]).data.length
            - 1) := by
  constructor
  · exact Reachable.written _ _
      (Reachable.recovered ⟨0, 0, 0, [0, 0, 0, 0]⟩ (by decide))
  · decide

/-- C1 amended (persistence round-trip): for every reachable buffer state
that is empty (`read = write`), if bytes `B` are appended, a byte-exact
snapshot of the region is taken, and recovery is re-run on that snapshot,
then the subsequent consumer read returns exactly `B`, in order, capped
by the capacity `data_len − 1`. -/
theorem roundtrip_amended (s : RingState) (B : List Nat)
    (hreach : Reachable s) (hempty : s.read = s.write) :
    readBytes (recover (producerWrite s B)) = B.take (s.data.length - 1) := by
  obtain ⟨h1, h2, h3, h4⟩ := reachable_inv s hreach
  have hinv : Inv (producerWrite s B) := producerWrite_inv s B ⟨h1, h2, h3, h4⟩
  have hrec : recover (producerWrite s B) = producerWrite s B := by
    obtain ⟨g1, g2, g3, g4⟩ := hinv
    unfold recover
    dsimp only
    rw [if_neg (by simp [g1]), if_pos g3, if_pos g4]
  rw [hrec, readBytes_producerWrite s B h3 h4]
  have hre : readBytes s = [] := by
    rw [readBytes_straight (le_of_eq hempty)]
    simp [hempty]
  have hav : available s.data.length s.read s.write = s.data.length - 1 := by
    unfold available
    rw [if_neg (by omega)]
    omega
  rw [hre, hav, List.nil_append, take_min_length]

/-- Witness for `roundtrip_amended` at a concrete empty reachable state. -/
theorem roundtrip_amended_witness :
    readBytes (recover (producerWrite (recover ⟨0, 0, 0, [0, 0, 0, 0]⟩) [1, 2]))
      = [1, 2].take ((recover ⟨0, 0, 0, [0, 0, 0, 0]⟩).data.length - 1) :=
  roundtrip_amended (recover ⟨0, 0, 0, [0, 0, 0, 0]⟩) [1, 2]
    (Reachable.recovered ⟨0, 0, 0, [0, 0, 0, 0]⟩ (by decide)) (by decide)

end DefmtPersist
